import Mathlib

/-!
Verification of the deproxy test-double engine of the tempesta-test
repository: a shallow embedding of framework/deproxy_client.py together
with the parser contract described in the design document, and proofs of
the testable properties.  Python byte strings are modelled as lists of
natural numbers (the code points of their characters).
-/

/-- Lifecycle phase of an endpoint.  Modelled from the spec: the state
machine Idle -[start]-> Started -[stop]-> Stopped of the connection state
tracker (the helpers.stateful module itself is not among the sources; the
client only compares its state against STATE_STARTED). -/
inductive Phase where
  | idle
  | started
  | stopped
deriving DecidableEq

/-- Model of deproxy.Response as consumed by the client: the only field the
client code reads is msg, the raw text of the parsed message, whose length
gives the number of bytes consumed from the front of the buffer. -/
structure DResponse where
  msg : List Nat
deriving DecidableEq

/-- Outcome of the deproxy.Response constructor on the current buffer: it
either returns a parsed response, raises IncompliteMessage, or raises
ParseError with a reason. -/
inductive RespOutcome where
  | incomplete
  | ok (resp : DResponse)
  | err (e : String)
deriving DecidableEq

/-- Exception raised by BaseDeproxyClient.handle_read: either a re-raised
ParseError coming from the parser, or the garbage-after-response-end
ParseError carrying the leftover bytes that the source interpolates into
its message. -/
inductive HRError where
  | parse (e : String)
  | garbage (leftover : List Nat)
deriving DecidableEq

/-- State of one DeproxyClient endpoint: the fields read and written by
framework/deproxy_client.py, viewed for a single instance. -/
structure DClient where
  state : Phase := .stopped
  response_buffer : List Nat := []
  request_buffer : List Nat := []
  request : Option (List Nat) := none
  responses : List DResponse := []
  last_response : Option DResponse := none
  nr : Nat := 0
deriving DecidableEq

/-- DeproxyClient.recieve_response: append the response to the message
history and remember it as the last response. -/
def DeproxyClient.recieve_response (c : DClient) (resp : DResponse) : DClient :=
  { c with responses := c.responses ++ [resp], last_response := some resp }

/-- BaseDeproxyClient.make_request: store the parsed request and set the
write buffer to the raw request bytes. -/
def BaseDeproxyClient.make_request (c : DClient) (request : List Nat) : DClient :=
  { c with request := some request, request_buffer := request }

/-- DeproxyClient.make_request: capture the current number of recorded
responses in nr, then delegate to the base class. -/
def DeproxyClient.make_request (c : DClient) (request : List Nat) : DClient :=
  BaseDeproxyClient.make_request { c with nr := c.responses.length } request

/-- BaseDeproxyClient.writable: there is data to write iff the request
buffer is non-empty. -/
def BaseDeproxyClient.writable (c : DClient) : Bool :=
  0 < c.request_buffer.length

/-- BaseDeproxyClient.handle_read, parameterised by the parser (the
deproxy.Response constructor lives outside the sources).  data is the byte
string returned by recv.  The result pairs the post-state of the client
object with the exception raised by the call, if any; when an exception is
raised the object keeps the state it had at the raise point, exactly as in
Python. -/
def BaseDeproxyClient.handle_read (parse : List Nat → RespOutcome)
    (c : DClient) (data : List Nat) : DClient × Option HRError :=
  let buf := c.response_buffer ++ data
  if buf.isEmpty then ({ c with response_buffer := buf }, none)
  else
    match parse buf with
    | .incomplete => ({ c with response_buffer := buf }, none)
    | .err e => ({ c with response_buffer := buf }, some (.parse e))
    | .ok resp =>
      let c1 := { c with response_buffer := buf.drop resp.msg.length }
      if 0 < c1.response_buffer.length then
        (c1, some (.garbage c1.response_buffer))
      else
        let c2 := DeproxyClient.recieve_response c1 resp
        ({ c2 with response_buffer := [] }, none)

/-- One polling observation made by the waiting test thread inside
DeproxyClient.wait_for_response: the value of len(self.responses) read at
the head of the while loop and the elapsed time t - t0 read just after it.
The event loop thread mutates responses concurrently, so the sequence of
observations is an input of the model; elapsed times are measured in
abstract non-negative clock units. -/
abbrev PollObs := Nat × Nat

/-- The polling loop of DeproxyClient.wait_for_response: exit with True as
soon as the observed response count differs from nr, with False as soon as
the elapsed time exceeds the timeout, and keep polling otherwise.  An
exhausted observation list yields none (the real loop always receives
further observations because wall-clock time grows without bound). -/
def waitLoop (nr timeout : Nat) : List PollObs → Option Bool
  | [] => none
  | (cnt, t) :: rest =>
    if cnt ≠ nr then some true
    else if timeout < t then some false
    else waitLoop nr timeout rest

/-- DeproxyClient.wait_for_response: immediately False unless the client is
in the Started state, otherwise the polling loop. -/
def DeproxyClient.wait_for_response (c : DClient) (timeout : Nat)
    (obs : List PollObs) : Option Bool :=
  if c.state ≠ Phase.started then some false
  else waitLoop c.nr timeout obs

/-- The sleep interval of the polling loop, time.sleep(0.01), in seconds. -/
def sleep_interval : ℚ := 1 / 100

theorem waitLoop_eq_true_iff (nr timeout : Nat) (obs : List PollObs) :
    waitLoop nr timeout obs = some true ↔
      ∃ p x q, obs = p ++ x :: q ∧ x.1 ≠ nr ∧
        ∀ y ∈ p, y.1 = nr ∧ y.2 ≤ timeout := by
  induction obs with
  | nil =>
    simp only [waitLoop]
    constructor
    · intro h; cases h
    · rintro ⟨p, x, q, hsplit, -, -⟩
      exact absurd hsplit.symm (by simp)
  | cons hd rest ih =>
    obtain ⟨cnt, t⟩ := hd
    by_cases hc : cnt = nr
    · subst hc
      by_cases ht : timeout < t
      · simp only [waitLoop]
        rw [if_neg (fun h => h rfl), if_pos ht]
        constructor
        · intro h; cases h
        · rintro ⟨p, x, q, hsplit, hx, hp⟩
          cases p with
          | nil =>
            simp only [List.nil_append, List.cons.injEq] at hsplit
            exact (hx (by rw [← hsplit.1])).elim
          | cons y p' =>
            simp only [List.cons_append, List.cons.injEq] at hsplit
            have hy := hp y (by simp)
            rw [← hsplit.1] at hy
            exact absurd hy.2 (by simpa using ht)
      · simp only [waitLoop]
        rw [if_neg (fun h => h rfl), if_neg ht, ih]
        constructor
        · rintro ⟨p, x, q, hsplit, hx, hp⟩
          refine ⟨(cnt, t) :: p, x, q, by simp [hsplit], hx, ?_⟩
          intro y hy
          rcases List.mem_cons.1 hy with hy | hy
          · exact hy ▸ ⟨rfl, Nat.le_of_not_lt ht⟩
          · exact hp y hy
        · rintro ⟨p, x, q, hsplit, hx, hp⟩
          cases p with
          | nil =>
            simp only [List.nil_append, List.cons.injEq] at hsplit
            exact absurd (by rw [← hsplit.1]) hx
          | cons y p' =>
            simp only [List.cons_append, List.cons.injEq] at hsplit
            exact ⟨p', x, q, hsplit.2, hx, fun z hz => hp z (by simp [hz])⟩
    · simp only [waitLoop]
      rw [if_pos hc]
      constructor
      · intro _
        exact ⟨[], (cnt, t), rest, by simp, hc, by simp⟩
      · intro _; rfl

theorem waitLoop_eq_false_of_timeout (nr timeout : Nat) (p : List PollObs)
    (x : PollObs) (q : List PollObs)
    (hp : ∀ y ∈ p, y.1 = nr ∧ y.2 ≤ timeout)
    (hx : x.1 = nr) (ht : timeout < x.2) :
    waitLoop nr timeout (p ++ x :: q) = some false := by
  induction p with
  | nil =>
    obtain ⟨cnt, t⟩ := x
    simp only [List.nil_append, waitLoop]
    simp only at hx ht
    simp [hx, ht]
  | cons y p' ih =>
    obtain ⟨cnt, t⟩ := y
    have hy := hp (cnt, t) (by simp)
    simp only at hy
    simp only [List.cons_append, waitLoop, hy.1, ite_not, if_pos rfl,
      if_neg (Nat.not_lt.2 hy.2)]
    exact ih fun z hz => hp z (by simp [hz])

/-- Modelled from the spec: the simplest parser satisfying the parser
contract, used to instantiate the theorems about handle_read at concrete
inputs — the first byte of a message gives its body length, the byte 255
marks a malformed start, and a complete message consumes the length byte
plus the body. -/
def parseByteLenResp : List Nat → RespOutcome
  | [] => RespOutcome.incomplete
  | n :: rest =>
    if n = 255 then RespOutcome.err "bad start line"
    else if n ≤ rest.length then RespOutcome.ok ⟨n :: rest.take n⟩
    else RespOutcome.incomplete

/-- C1: for a client in the Started state, wait_for_response returns True
exactly when some poll observes the recorded-response count moved away from
the value captured by make_request, with every earlier poll seeing the old
count within the timeout; when the count never moves, the first poll whose
elapsed time exceeds the timeout makes it return False — a returned value,
not an exception, and the model is a pure function of the client so the
recorded responses are untouched; the loop sleeps a positive interval
between polls instead of busy-spinning. -/
theorem wait_for_response_spec (c : DClient) (req : List Nat) (timeout : Nat)
    (obs : List PollObs) (hs : c.state = Phase.started) :
    (DeproxyClient.wait_for_response (DeproxyClient.make_request c req)
        timeout obs = some true ↔
      ∃ p x q, obs = p ++ x :: q ∧ x.1 ≠ c.responses.length ∧
        ∀ y ∈ p, y.1 = c.responses.length ∧ y.2 ≤ timeout) ∧
    (∀ p x q, obs = p ++ x :: q →
      (∀ y ∈ p, y.1 = c.responses.length ∧ y.2 ≤ timeout) →
      x.1 = c.responses.length → timeout < x.2 →
      DeproxyClient.wait_for_response (DeproxyClient.make_request c req)
        timeout obs = some false) ∧
    0 < sleep_interval := by
  have hstate : (DeproxyClient.make_request c req).state = Phase.started := hs
  have hnr : (DeproxyClient.make_request c req).nr = c.responses.length := rfl
  unfold DeproxyClient.wait_for_response
  rw [if_neg (fun h => h hstate), hnr]
  refine ⟨waitLoop_eq_true_iff _ _ _, ?_, by norm_num [sleep_interval]⟩
  intro p x q hsplit hp hx ht
  rw [hsplit]
  exact waitLoop_eq_false_of_timeout _ _ p x q hp hx ht

/-- Witness for wait_for_response_spec: a concrete started client, request
and observation schedule where the second poll sees the count advance. -/
theorem wait_for_response_spec_witness :
    (({ state := Phase.started } : DClient)).state = Phase.started ∧
    ((DeproxyClient.wait_for_response
        (DeproxyClient.make_request { state := Phase.started } [71]) 5
        [(0, 1), (1, 2)] = some true ↔
      ∃ p x q, ([(0, 1), (1, 2)] : List PollObs) = p ++ x :: q ∧
        x.1 ≠ (({ state := Phase.started } : DClient)).responses.length ∧
        ∀ y ∈ p, y.1 = (({ state := Phase.started } : DClient)).responses.length ∧
          y.2 ≤ 5) ∧
    (∀ p x q, ([(0, 1), (1, 2)] : List PollObs) = p ++ x :: q →
      (∀ y ∈ p, y.1 = (({ state := Phase.started } : DClient)).responses.length ∧
        y.2 ≤ 5) →
      x.1 = (({ state := Phase.started } : DClient)).responses.length → 5 < x.2 →
      DeproxyClient.wait_for_response
        (DeproxyClient.make_request { state := Phase.started } [71]) 5
        [(0, 1), (1, 2)] = some false) ∧
    0 < sleep_interval) :=
  ⟨rfl, wait_for_response_spec _ _ _ _ rfl⟩

/-- C9: wait_for_response on a client that is not in the Started state
returns False immediately; and a pending wait on a client whose recorded
response count never advances returns False as soon as a poll sees the
timeout exceeded, rather than hanging. -/
theorem wait_for_response_after_stop (c : DClient) (timeout : Nat)
    (obs : List PollObs) :
    (c.state ≠ Phase.started →
      DeproxyClient.wait_for_response c timeout obs = some false) ∧
    (∀ p x q, obs = p ++ x :: q →
      (∀ y ∈ p, y.1 = c.nr ∧ y.2 ≤ timeout) → x.1 = c.nr → timeout < x.2 →
      DeproxyClient.wait_for_response c timeout obs = some false) := by
  constructor
  · intro h
    simp [DeproxyClient.wait_for_response, h]
  · intro p x q hsplit hp hx ht
    unfold DeproxyClient.wait_for_response
    by_cases hst : c.state ≠ Phase.started
    · rw [if_pos hst]
    · rw [if_neg hst, hsplit]
      exact waitLoop_eq_false_of_timeout _ _ p x q hp hx ht

/-- Witness for wait_for_response_after_stop: a concrete stopped client. -/
theorem wait_for_response_after_stop_witness :
    (({ state := Phase.stopped } : DClient)).state ≠ Phase.started ∧
    DeproxyClient.wait_for_response { state := Phase.stopped } 5 [] =
      some false :=
  ⟨by decide, (wait_for_response_after_stop _ _ _).1 (by decide)⟩

/-- C10: when recv delivers zero bytes and the accumulated read buffer is
empty, handle_read returns at the emptiness check: the client state is
unchanged, no exception is raised, and the result does not depend on the
parser at all, so the parser is never consulted. -/
theorem handle_read_empty_noop (parse : List Nat → RespOutcome) (c : DClient)
    (h : c.response_buffer = []) :
    BaseDeproxyClient.handle_read parse c [] = (c, none) := by
  cases c
  simp only at h
  subst h
  rfl

/-- Witness for handle_read_empty_noop at the default client and an
arbitrary concrete parser. -/
theorem handle_read_empty_noop_witness :
    (({} : DClient)).response_buffer = [] ∧
    BaseDeproxyClient.handle_read parseByteLenResp {} [] = ({}, none) :=
  ⟨rfl, handle_read_empty_noop _ _ rfl⟩

/-- C4: when the parse of the read buffer yields a complete response with at
least one leftover byte, handle_read raises the garbage-after-response-end
ParseError carrying the leftover bytes: the error is surfaced immediately to
the caller, the leftover is not parsed as a further pipelined response, and
no response is recorded (the post-state only has its buffer truncated). -/
theorem handle_read_trailing_garbage (parse : List Nat → RespOutcome)
    (c : DClient) (data : List Nat) (resp : DResponse)
    (hp : parse (c.response_buffer ++ data) = RespOutcome.ok resp)
    (hl : resp.msg.length < (c.response_buffer ++ data).length) :
    BaseDeproxyClient.handle_read parse c data =
      ({ c with response_buffer :=
          (c.response_buffer ++ data).drop resp.msg.length },
       some (HRError.garbage
          ((c.response_buffer ++ data).drop resp.msg.length))) := by
  have h0 : (c.response_buffer ++ data).isEmpty = false := by
    cases hbuf : c.response_buffer ++ data
    · rw [hbuf] at hl
      simp at hl
    · rfl
  have h1 : resp.msg.length < c.response_buffer.length + data.length := by
    rw [List.length_append] at hl
    omega
  simp [BaseDeproxyClient.handle_read, h0, hp, h1]

/-- Witness for handle_read_trailing_garbage: one leftover byte remains
after the complete response. -/
theorem handle_read_trailing_garbage_witness :
    parseByteLenResp ((({} : DClient)).response_buffer ++ [1, 97, 99]) =
      RespOutcome.ok ⟨[1, 97]⟩ ∧
    (⟨[1, 97]⟩ : DResponse).msg.length <
      ((({} : DClient)).response_buffer ++ [1, 97, 99]).length ∧
    BaseDeproxyClient.handle_read parseByteLenResp {} [1, 97, 99] =
      ({ response_buffer := [99] }, some (HRError.garbage [99])) :=
  ⟨by decide, by decide,
    handle_read_trailing_garbage parseByteLenResp {} [1, 97, 99] ⟨[1, 97]⟩
      (by decide) (by decide)⟩

/-- C7: the parse-result invariant of handle_read — when the parser raises
IncompliteMessage no data is consumed: the buffer keeps every accumulated
byte, no response is recorded and no exception is raised; when it returns a
complete response whose consumed length len(response.msg) is at most the
buffer length, exactly those bytes are removed from the front of the
buffer. -/
theorem handle_read_parse_result_invariant (parse : List Nat → RespOutcome)
    (c : DClient) (data : List Nat) :
    (parse (c.response_buffer ++ data) = RespOutcome.incomplete →
      BaseDeproxyClient.handle_read parse c data =
        ({ c with response_buffer := c.response_buffer ++ data }, none)) ∧
    (∀ resp, parse (c.response_buffer ++ data) = RespOutcome.ok resp →
      resp.msg.length ≤ (c.response_buffer ++ data).length →
      (BaseDeproxyClient.handle_read parse c data).1.response_buffer =
        (c.response_buffer ++ data).drop resp.msg.length) := by
  constructor
  · intro hp
    by_cases hb : (c.response_buffer ++ data).isEmpty
    · have hnil : c.response_buffer ++ data = [] := by
        simpa [List.isEmpty_iff] using hb
      simp [BaseDeproxyClient.handle_read, hnil]
    · simp only [Bool.not_eq_true] at hb
      simp [BaseDeproxyClient.handle_read, hb, hp]
  · intro resp hp hk
    by_cases hb : (c.response_buffer ++ data).isEmpty
    · have hnil : c.response_buffer ++ data = [] := by
        simpa [List.isEmpty_iff] using hb
      simp [BaseDeproxyClient.handle_read, hnil]
    · simp only [Bool.not_eq_true] at hb
      by_cases hg : resp.msg.length < c.response_buffer.length + data.length
      · simp [BaseDeproxyClient.handle_read, hb, hp, hg]
      · have hdrop : (c.response_buffer ++ data).drop resp.msg.length = [] := by
          apply List.length_eq_zero.mp
          rw [List.length_drop, List.length_append]
          omega
        simp [BaseDeproxyClient.handle_read, hb, hp, hg, hdrop,
          DeproxyClient.recieve_response]

/-- Witness for handle_read_parse_result_invariant: an incomplete prefix
leaves the buffer intact, and a complete message consumes exactly its own
length. -/
theorem handle_read_parse_result_invariant_witness :
    (parseByteLenResp ((({} : DClient)).response_buffer ++ [5]) =
        RespOutcome.incomplete ∧
      BaseDeproxyClient.handle_read parseByteLenResp {} [5] =
        ({ response_buffer := [5] }, none)) ∧
    (parseByteLenResp ((({} : DClient)).response_buffer ++ [1, 97]) =
        RespOutcome.ok ⟨[1, 97]⟩ ∧
      (BaseDeproxyClient.handle_read parseByteLenResp {} [1, 97]).1.response_buffer =
        []) :=
  ⟨⟨by decide, (handle_read_parse_result_invariant _ _ _).1 (by decide)⟩,
   ⟨by decide,
    (handle_read_parse_result_invariant parseByteLenResp {} [1, 97]).2
      ⟨[1, 97]⟩ (by decide) (by decide)⟩⟩

/-- C6 counterexample: make_request does not append to the write queue — at
a concrete client whose previously enqueued request bytes are still
unflushed, enqueuing a second request leaves only the new request's bytes
queued, so the two requests are not both retained. -/
theorem make_request_overwrites_cex :
    (DeproxyClient.make_request
        { state := Phase.started, request_buffer := [65] } [66]).request_buffer
      = [66] ∧
    (DeproxyClient.make_request
        { state := Phase.started, request_buffer := [65] } [66]).request_buffer
      ≠ [65] ++ [66] := by
  decide

/-- C6 amended: make_request replaces the client's write buffer with the new
request's bytes; previously enqueued bytes that were not yet flushed are
discarded rather than kept queued behind it. -/
theorem make_request_replaces (c : DClient) (request : List Nat) :
    (DeproxyClient.make_request c request).request_buffer = request := rfl

/-- Python heap of list objects, for modelling class-level mutable
attributes: each index is a reference to one list object. -/
structure PyHeap where
  lists : List (List DResponse)
deriving DecidableEq

/-- A DeproxyClient instance as Python sees it: its instance dictionary,
where none means the attribute was never assigned on the instance and
lookup falls back to the class attribute.  The class body of DeproxyClient
executes once and creates last_response = None, responses = [] (a single
shared list object) and nr = 0 as class attributes. -/
structure DeproxyClientInstance where
  responses_attr : Option Nat := none
  last_response_attr : Option (Option DResponse) := none
  nr_attr : Option Nat := none
deriving DecidableEq

/-- Reference to the single list object created by the class-level
assignment responses = [] of DeproxyClient. -/
def DeproxyClient.class_responses_ref : Nat := 0

/-- The responses visible through an instance: attribute lookup resolves to
the instance attribute when present, otherwise to the class attribute, and
then dereferences the list object on the heap. -/
def DeproxyClientInstance.responsesList (h : PyHeap)
    (c : DeproxyClientInstance) : List DResponse :=
  h.lists.getD (c.responses_attr.getD DeproxyClient.class_responses_ref) []

/-- DeproxyClient.recieve_response under Python attribute semantics:
self.responses.append(response) mutates the list object found by attribute
lookup — for a fresh instance, the class-level list shared by every
instance — while self.last_response = response creates an instance
attribute. -/
def DeproxyClientInstance.recieve_response (h : PyHeap)
    (c : DeproxyClientInstance) (resp : DResponse) :
    PyHeap × DeproxyClientInstance :=
  let ref := c.responses_attr.getD DeproxyClient.class_responses_ref
  ({ lists := h.lists.set ref (h.lists.getD ref [] ++ [resp]) },
   { c with last_response_attr := some (some resp) })

/-- C2 is refuted by the code: with a fresh heap holding the single empty
class-level list and two fresh DeproxyClient instances, recording a
response through the first instance makes the appended response visible
through the second instance's responses attribute as well, because both
instances alias the one list object created by the class-level
responses = [] — so the instances do not own their message history. -/
theorem recieve_response_shared_across_instances :
    DeproxyClientInstance.responsesList
        (DeproxyClientInstance.recieve_response { lists := [[]] } {}
          ⟨[72]⟩).1 {} = [⟨[72]⟩] ∧
    DeproxyClientInstance.responsesList { lists := [[]] } {} = [] := by
  decide

/-- Modelled from the spec: the result of one parser feed — Incomplete
(need more bytes, no data consumed), Complete (a message together with the
number of bytes consumed from the front of the buffer), or Malformed with a
classified reason. -/
inductive ParseResult where
  | incomplete
  | complete (msg : List Nat) (consumed : Nat)
  | malformed (reason : String)
deriving DecidableEq

/-- Modelled from the spec: the state of the onReadable drain driver — the
growing byte buffer, the ordered sequence of Complete messages produced so
far, and the fatal Malformed classification once one occurred. -/
structure DriverState where
  buffer : List Nat := []
  msgs : List (List Nat) := []
  err : Option String := none
deriving DecidableEq

/-- Modelled from the spec: the drain loop of onReadable — repeatedly
invoke the parser on the current buffer; each Complete removes the consumed
bytes from the front of the buffer and appends the message; Incomplete
stops the loop; Malformed is fatal and recorded.  The fuel bounds the
number of iterations; one more than the buffer length always suffices
because a Complete result consumes at least one byte. -/
def drain (p : List Nat → ParseResult) : Nat → DriverState → DriverState
  | 0, st => st
  | fuel + 1, st =>
    match p st.buffer with
    | .incomplete => st
    | .malformed r => { st with err := some r }
    | .complete m k =>
      if 0 < k ∧ k ≤ st.buffer.length then
        drain p fuel
          { buffer := st.buffer.drop k, msgs := st.msgs ++ [m], err := st.err }
      else { st with err := some "parser contract violation" }

/-- Modelled from the spec: delivery of one network fragment — a Malformed
classification is fatal, so nothing further is fed after it; otherwise the
fragment is appended to the buffer and the drain loop runs. -/
def feedFragment (p : List Nat → ParseResult) (st : DriverState)
    (frag : List Nat) : DriverState :=
  if st.err.isSome then st
  else drain p (st.buffer.length + frag.length + 1)
    { st with buffer := st.buffer ++ frag }

/-- Feeding a whole sequence of fragments, starting from the empty state. -/
def feedAll (p : List Nat → ParseResult) (frags : List (List Nat)) :
    DriverState :=
  frags.foldl (feedFragment p) {}

theorem drain_fuel_irrelevant (p : List Nat → ParseResult) :
    ∀ f1 : Nat, ∀ st : DriverState, ∀ f2 : Nat,
      st.buffer.length < f1 → st.buffer.length < f2 →
      drain p f1 st = drain p f2 st := by
  intro f1
  induction f1 with
  | zero => intro st f2 h1 _; omega
  | succ f1 ih =>
    intro st f2 h1 h2
    obtain ⟨f2', rfl⟩ : ∃ f2', f2 = f2' + 1 := ⟨f2 - 1, by omega⟩
    simp only [drain]
    cases hp : p st.buffer with
    | incomplete => rfl
    | malformed r => rfl
    | complete m k =>
      dsimp only
      by_cases hk : 0 < k ∧ k ≤ st.buffer.length
      · rw [if_pos hk, if_pos hk]
        apply ih
        · simp only [List.length_drop]
          omega
        · simp only [List.length_drop]
          omega
      · rw [if_neg hk, if_neg hk]

theorem drain_buffer_length_le (p : List Nat → ParseResult) :
    ∀ fuel : Nat, ∀ st : DriverState,
      (drain p fuel st).buffer.length ≤ st.buffer.length := by
  intro fuel
  induction fuel with
  | zero => intro st; exact Nat.le_refl _
  | succ fuel ih =>
    intro st
    simp only [drain]
    cases hp : p st.buffer with
    | incomplete => exact Nat.le_refl _
    | malformed r => exact Nat.le_refl _
    | complete m k =>
      dsimp only
      by_cases hk : 0 < k ∧ k ≤ st.buffer.length
      · rw [if_pos hk]
        refine le_trans (ih _) ?_
        simp only [List.length_drop]
        omega
      · rw [if_neg hk]

theorem drain_append (p : List Nat → ParseResult)
    (H1 : ∀ B m k, p B = ParseResult.complete m k → 0 < k ∧ k ≤ B.length)
    (H2 : ∀ B E m k, p B = ParseResult.complete m k →
      p (B ++ E) = ParseResult.complete m k)
    (H3 : ∀ B E r, p B = ParseResult.malformed r →
      p (B ++ E) = ParseResult.malformed r) :
    ∀ f1 : Nat, ∀ st : DriverState, ∀ E : List Nat, ∀ f2 : Nat,
      st.buffer.length < f1 → st.buffer.length + E.length < f2 →
      st.err = none →
      drain p f2 { st with buffer := st.buffer ++ E } =
        (if (drain p f1 st).err = none
         then drain p ((drain p f1 st).buffer.length + E.length + 1)
           { drain p f1 st with buffer := (drain p f1 st).buffer ++ E }
         else { drain p f1 st with buffer := (drain p f1 st).buffer ++ E }) := by
  intro f1
  induction f1 with
  | zero => intro st E f2 h1 _ _; omega
  | succ f1 ih =>
    intro st E f2 h1 h2 hst
    obtain ⟨f2', rfl⟩ : ∃ f2', f2 = f2' + 1 := ⟨f2 - 1, by omega⟩
    cases hp : p st.buffer with
    | incomplete =>
      have hd : drain p (f1 + 1) st = st := by
        simp only [drain, hp]
      rw [hd, if_pos hst]
      exact drain_fuel_irrelevant p (f2' + 1) _ (st.buffer.length + E.length + 1)
        (by show (st.buffer ++ E).length < f2' + 1; rw [List.length_append]; omega)
        (by show (st.buffer ++ E).length < st.buffer.length + E.length + 1
            rw [List.length_append]; omega)
    | malformed r =>
      have hd : drain p (f1 + 1) st = { st with err := some r } := by
        simp only [drain, hp]
      have hp2 := H3 st.buffer E r hp
      have hLHS : drain p (f2' + 1) { st with buffer := st.buffer ++ E } =
          { st with buffer := st.buffer ++ E, err := some r } := by
        simp only [drain, hp2]
      rw [hLHS, hd, if_neg (by simp)]
    | complete m k =>
      have hk := H1 st.buffer m k hp
      have hd : drain p (f1 + 1) st =
          drain p f1
            { buffer := st.buffer.drop k, msgs := st.msgs ++ [m],
              err := st.err } := by
        simp only [drain, hp]
        rw [if_pos hk]
      have hp2 := H2 st.buffer E m k hp
      have hk2 : 0 < k ∧ k ≤ (st.buffer ++ E).length := by
        rw [List.length_append]
        exact ⟨hk.1, le_trans hk.2 (Nat.le_add_right _ _)⟩
      have hLHS : drain p (f2' + 1) { st with buffer := st.buffer ++ E } =
          drain p f2'
            { buffer := st.buffer.drop k ++ E, msgs := st.msgs ++ [m],
              err := st.err } := by
        simp only [drain, hp2]
        rw [if_pos (show 0 < k ∧ k ≤ (st.buffer ++ E).length from hk2)]
        rw [List.drop_append_of_le_length hk.2]
      rw [hLHS, hd, hst]
      exact ih (⟨st.buffer.drop k, st.msgs ++ [m], none⟩ : DriverState) E f2'
        (by show (st.buffer.drop k).length < f1; rw [List.length_drop]; omega)
        (by show (st.buffer.drop k).length + E.length < f2'
            rw [List.length_drop]; omega)
        rfl

theorem feedAll_oneShot (p : List Nat → ParseResult)
    (H0 : p [] = ParseResult.incomplete)
    (H1 : ∀ B m k, p B = ParseResult.complete m k → 0 < k ∧ k ≤ B.length)
    (H2 : ∀ B E m k, p B = ParseResult.complete m k →
      p (B ++ E) = ParseResult.complete m k)
    (H3 : ∀ B E r, p B = ParseResult.malformed r →
      p (B ++ E) = ParseResult.malformed r) :
    ∀ frags : List (List Nat),
      (feedAll p frags).msgs =
        (drain p (frags.flatten.length + 1) { buffer := frags.flatten }).msgs ∧
      (feedAll p frags).err =
        (drain p (frags.flatten.length + 1) { buffer := frags.flatten }).err ∧
      ((feedAll p frags).err = none →
        (feedAll p frags).buffer =
          (drain p (frags.flatten.length + 1) { buffer := frags.flatten }).buffer) := by
  intro frags
  induction frags using List.reverseRecOn with
  | nil =>
    have hS : drain p ((List.flatten ([] : List (List Nat))).length + 1)
        { buffer := (List.flatten ([] : List (List Nat))) } =
        ({} : DriverState) := by
      simp only [List.flatten_nil, List.length_nil, drain, H0]
    rw [hS]
    exact ⟨rfl, rfl, fun _ => rfl⟩
  | append_singleton fs f ih =>
    obtain ⟨ihm, ihe, ihb⟩ := ih
    have hflat : (fs ++ [f]).flatten = fs.flatten ++ f := by
      simp [List.flatten_append]
    have hstep : feedAll p (fs ++ [f]) = feedFragment p (feedAll p fs) f := by
      simp [feedAll, List.foldl_append]
    have hext := drain_append p H1 H2 H3 (fs.flatten.length + 1)
      ({ buffer := fs.flatten } : DriverState) f
      ((fs.flatten ++ f).length + 1)
      (by show fs.flatten.length < fs.flatten.length + 1; omega)
      (by show fs.flatten.length + f.length < (fs.flatten ++ f).length + 1
          rw [List.length_append]; omega)
      rfl
    rw [hflat, hstep]
    cases hste : (feedAll p fs).err with
    | none =>
      have hSerr : (drain p (fs.flatten.length + 1)
          { buffer := fs.flatten }).err = none := by
        rw [← ihe, hste]
      have hb := ihb hste
      rw [if_pos hSerr] at hext
      have hfrag : feedFragment p (feedAll p fs) f =
          drain p ((fs.flatten ++ f).length + 1) { buffer := fs.flatten ++ f } := by
        unfold feedFragment
        rw [if_neg (by rw [hste]; simp)]
        have hstate : ({ feedAll p fs with
            buffer := (feedAll p fs).buffer ++ f } : DriverState) =
            { drain p (fs.flatten.length + 1) { buffer := fs.flatten } with
              buffer := (drain p (fs.flatten.length + 1)
                { buffer := fs.flatten }).buffer ++ f } := by
          show DriverState.mk ((feedAll p fs).buffer ++ f)
              (feedAll p fs).msgs (feedAll p fs).err = _
          rw [hb, ihm, ihe]
        rw [hstate, hb, ← hext]
      rw [hfrag]
      exact ⟨rfl, rfl, fun _ => rfl⟩
    | some e =>
      have hSerr : (drain p (fs.flatten.length + 1)
          { buffer := fs.flatten }).err = some e := by
        rw [← ihe, hste]
      rw [if_neg (by rw [hSerr]; simp)] at hext
      have hfrag : feedFragment p (feedAll p fs) f = feedAll p fs := by
        unfold feedFragment
        rw [if_pos (by rw [hste]; simp)]
      rw [hfrag, hext]
      refine ⟨ihm, ?_, ?_⟩
      · show (feedAll p fs).err =
          (drain p (fs.flatten.length + 1) { buffer := fs.flatten }).err
        exact ihe
      · intro hnone
        rw [hste] at hnone
        cases hnone

/-- C3: fragmentation invariance — for any parser satisfying the spec's
parser contract (an empty buffer is Incomplete; a Complete result consumes
at least one and at most all buffered bytes; Complete and Malformed
classifications are stable under extension of the buffer, since the parser
only inspects the bytes it classifies), delivering a byte sequence as one
fragment and delivering it split into arbitrary non-empty fragments yield
the same ordered sequence of Complete messages and the same final Malformed
classification, if any. -/
theorem fragmentation_invariance (p : List Nat → ParseResult)
    (H0 : p [] = ParseResult.incomplete)
    (H1 : ∀ B m k, p B = ParseResult.complete m k → 0 < k ∧ k ≤ B.length)
    (H2 : ∀ B E m k, p B = ParseResult.complete m k →
      p (B ++ E) = ParseResult.complete m k)
    (H3 : ∀ B E r, p B = ParseResult.malformed r →
      p (B ++ E) = ParseResult.malformed r)
    (frags : List (List Nat)) (_hne : ∀ f ∈ frags, f ≠ []) :
    (feedAll p frags).msgs = (feedAll p [frags.flatten]).msgs ∧
    (feedAll p frags).err = (feedAll p [frags.flatten]).err := by
  obtain ⟨hm1, he1, -⟩ := feedAll_oneShot p H0 H1 H2 H3 frags
  obtain ⟨hm2, he2, -⟩ := feedAll_oneShot p H0 H1 H2 H3 [frags.flatten]
  have hflat : ([frags.flatten] : List (List Nat)).flatten = frags.flatten := by
    simp
  rw [hflat] at hm2 he2
  exact ⟨hm1.trans hm2.symm, he1.trans he2.symm⟩

/-- Modelled from the spec: a minimal concrete instance of the parser
contract, used to witness the fragmentation-invariance theorem — the first
byte of a message gives its body length, the byte 255 marks a malformed
start line, and a complete message consumes the length byte plus the
body. -/
def parseByteLen : List Nat → ParseResult
  | [] => ParseResult.incomplete
  | n :: rest =>
    if n = 255 then ParseResult.malformed "bad start line"
    else if n ≤ rest.length then ParseResult.complete (n :: rest.take n) (n + 1)
    else ParseResult.incomplete

theorem parseByteLen_empty : parseByteLen [] = ParseResult.incomplete := rfl

theorem parseByteLen_progress : ∀ B m k,
    parseByteLen B = ParseResult.complete m k → 0 < k ∧ k ≤ B.length := by
  intro B m k h
  cases B with
  | nil => cases h
  | cons n rest =>
    simp only [parseByteLen] at h
    by_cases h255 : n = 255
    · rw [if_pos h255] at h; cases h
    · rw [if_neg h255] at h
      by_cases hlen : n ≤ rest.length
      · rw [if_pos hlen] at h
        cases h
        simp only [List.length_cons]
        omega
      · rw [if_neg hlen] at h; cases h

theorem parseByteLen_complete_ext : ∀ B E m k,
    parseByteLen B = ParseResult.complete m k →
    parseByteLen (B ++ E) = ParseResult.complete m k := by
  intro B E m k h
  cases B with
  | nil => cases h
  | cons n rest =>
    simp only [parseByteLen] at h
    by_cases h255 : n = 255
    · rw [if_pos h255] at h; cases h
    · rw [if_neg h255] at h
      by_cases hlen : n ≤ rest.length
      · rw [if_pos hlen] at h
        cases h
        show parseByteLen (n :: (rest ++ E)) = _
        simp only [parseByteLen]
        rw [if_neg h255,
          if_pos (by rw [List.length_append]; omega),
          List.take_append_of_le_length hlen]
      · rw [if_neg hlen] at h; cases h

theorem parseByteLen_malformed_ext : ∀ B E r,
    parseByteLen B = ParseResult.malformed r →
    parseByteLen (B ++ E) = ParseResult.malformed r := by
  intro B E r h
  cases B with
  | nil => cases h
  | cons n rest =>
    simp only [parseByteLen] at h
    by_cases h255 : n = 255
    · rw [if_pos h255] at h
      show parseByteLen (n :: (rest ++ E)) = _
      simp only [parseByteLen]
      rw [if_pos h255]
      exact h.symm ▸ rfl
    · rw [if_neg h255] at h
      by_cases hlen : n ≤ rest.length
      · rw [if_pos hlen] at h; cases h
      · rw [if_neg hlen] at h; cases h

/-- Witness for fragmentation_invariance: the bytes of two contract-parser
messages delivered in three fragments against the same bytes in one call. -/
theorem fragmentation_invariance_witness :
    (∀ f ∈ ([[2], [97], [98, 0]] : List (List Nat)), f ≠ []) ∧
    (feedAll parseByteLen [[2], [97], [98, 0]]).msgs =
      (feedAll parseByteLen [([[2], [97], [98, 0]] : List (List Nat)).flatten]).msgs ∧
    (feedAll parseByteLen [[2], [97], [98, 0]]).err =
      (feedAll parseByteLen [([[2], [97], [98, 0]] : List (List Nat)).flatten]).err :=
  ⟨by decide,
   fragmentation_invariance parseByteLen parseByteLen_empty
     parseByteLen_progress parseByteLen_complete_ext parseByteLen_malformed_ext
     [[2], [97], [98, 0]] (by decide)⟩

/-- make_body from tests_encode_to_chunked.py: character i is
chr(i % 26 + ord('a')). -/
def make_body (body_len : Nat) : List Nat :=
  (List.range body_len).map (fun i => i % 26 + 97)

/-- The CRLF byte pair used as the join separator and chunk delimiter. -/
def CRLF : List Nat := [13, 10]

/-- The byte of one uppercase hexadecimal digit, as produced by the %X
format of make_chain. -/
def hexDigitByte (d : Nat) : Nat := if d < 10 then 48 + d else 55 + d

/-- The %X rendering of a chunk size: uppercase hexadecimal digit bytes,
most significant first, with "0" for zero. -/
def toHexBytes (n : Nat) : List Nat :=
  if n = 0 then [48] else (Nat.digits 16 n).reverse.map hexDigitByte

/-- The chunked encoding constructed by make_chain in
tests_encode_to_chunked.py: for a non-empty body the CRLF-join of
[hex length, body, "0", "", ""]; for an empty body the CRLF-join of
["0", "", ""], which is the bare zero-size chunk and terminating CRLF. -/
def encode_chunked (body : List Nat) : List Nat :=
  if body = [] then [48] ++ CRLF ++ CRLF
  else toHexBytes body.length ++ CRLF ++ body ++ CRLF ++ [48] ++ CRLF ++ CRLF

/-- Recognizer for the bytes of hexadecimal digits. -/
def isHexDigitByte (c : Nat) : Bool :=
  decide ((48 ≤ c ∧ c ≤ 57) ∨ (65 ≤ c ∧ c ≤ 70) ∨ (97 ≤ c ∧ c ≤ 102))

/-- The numeric value of one hexadecimal digit byte. -/
def hexVal (c : Nat) : Nat :=
  if c ≤ 57 then c - 48 else if c ≤ 70 then c - 55 else c - 87

/-- Accumulating scanner over a chunk-size line: consume hexadecimal digit
bytes until the terminating CRLF, failing on anything else. -/
def sizeLineAux (acc : Nat) : List Nat → Option (Nat × List Nat)
  | [] => none
  | c :: rest =>
    if c = 13 then
      match rest with
      | 10 :: rest2 => some (acc, rest2)
      | _ => none
    else if isHexDigitByte c then sizeLineAux (acc * 16 + hexVal c) rest
    else none

/-- Modelled from the spec: reading one chunk-size line — at least one
hexadecimal digit followed by CRLF; any malformed size line fails. -/
def parseSizeLine : List Nat → Option (Nat × List Nat)
  | [] => none
  | c :: rest => if isHexDigitByte c then sizeLineAux (hexVal c) rest else none

/-- Modelled from the spec: chunked decoding — read a chunk-size line,
accumulate exactly that many body bytes, consume the trailing CRLF and
repeat until the zero-size chunk and terminating CRLF; the result is the
decoded body, the number of data chunks before the terminator, and the
leftover bytes after the terminator.  The fuel bounds the number of chunks;
one more than the input length always suffices. -/
def decodeChunkedAux : Nat → List Nat → Option (List Nat × Nat × List Nat)
  | 0, _ => none
  | fuel + 1, s =>
    match parseSizeLine s with
    | none => none
    | some (n, rest) =>
      if n = 0 then
        if rest.take 2 = CRLF then some ([], 0, rest.drop 2) else none
      else if n ≤ rest.length ∧ (rest.drop n).take 2 = CRLF then
        match decodeChunkedAux fuel ((rest.drop n).drop 2) with
        | none => none
        | some (body, cnt, left) => some (rest.take n ++ body, cnt + 1, left)
      else none

/-- Chunked decoding with enough fuel for any number of chunks. -/
def decode_chunked (s : List Nat) : Option (List Nat × Nat × List Nat) :=
  decodeChunkedAux (s.length + 1) s

theorem isHexDigitByte_ne_13 (c : Nat) (h : isHexDigitByte c = true) :
    c ≠ 13 := by
  simp only [isHexDigitByte, decide_eq_true_eq] at h
  omega

theorem sizeLineAux_digits (ds : List Nat) :
    ∀ acc rest, (∀ d ∈ ds, isHexDigitByte d = true) →
    sizeLineAux acc (ds ++ 13 :: 10 :: rest) =
      some (ds.foldl (fun a d => a * 16 + hexVal d) acc, rest) := by
  induction ds with
  | nil =>
    intro acc rest _
    simp [sizeLineAux]
  | cons d ds ih =>
    intro acc rest hds
    have hd : isHexDigitByte d = true := hds d (by simp)
    show sizeLineAux acc (d :: (ds ++ 13 :: 10 :: rest)) = _
    simp only [sizeLineAux]
    rw [if_neg (isHexDigitByte_ne_13 d hd), if_pos hd]
    exact ih _ rest fun e he => hds e (by simp [he])

theorem hexDigitByte_spec :
    ∀ d < 16, isHexDigitByte (hexDigitByte d) = true ∧
      hexVal (hexDigitByte d) = d := by decide

theorem toHexBytes_digits (n : Nat) :
    ∀ d ∈ toHexBytes n, isHexDigitByte d = true := by
  intro d hd
  unfold toHexBytes at hd
  by_cases h0 : n = 0
  · rw [if_pos h0] at hd
    simp only [List.mem_singleton] at hd
    subst hd
    decide
  · rw [if_neg h0] at hd
    simp only [List.mem_map, List.mem_reverse] at hd
    obtain ⟨e, he, rfl⟩ := hd
    exact (hexDigitByte_spec e (Nat.digits_lt_base (by norm_num) he)).1

theorem foldVal_hexDigits (D : List Nat) :
    ∀ a, (∀ d ∈ D, d < 16) →
    (D.reverse.map hexDigitByte).foldl (fun x c => x * 16 + hexVal c) a =
      a * 16 ^ D.length + Nat.ofDigits 16 D := by
  induction D with
  | nil => intro a _; simp
  | cons d D ih =>
    intro a hD
    have hd : d < 16 := hD d (by simp)
    rw [List.reverse_cons, List.map_append, List.foldl_append]
    rw [ih a fun e he => hD e (by simp [he])]
    simp only [List.map_cons, List.map_nil, List.foldl_cons, List.foldl_nil,
      (hexDigitByte_spec d hd).2, Nat.ofDigits_cons, List.length_cons]
    ring

theorem parseSizeLine_toHexBytes (n : Nat) (rest : List Nat) :
    parseSizeLine (toHexBytes n ++ 13 :: 10 :: rest) = some (n, rest) := by
  by_cases h0 : n = 0
  · subst h0
    simp [toHexBytes, parseSizeLine, isHexDigitByte, hexVal, sizeLineAux]
  · have hne : Nat.digits 16 n ≠ [] := by
      simp [Nat.digits_ne_nil_iff_ne_zero, h0]
    have hdig : ∀ d ∈ toHexBytes n, isHexDigitByte d = true :=
      toHexBytes_digits n
    have hval : (toHexBytes n).foldl (fun x c => x * 16 + hexVal c) 0 = n := by
      unfold toHexBytes
      rw [if_neg h0, foldVal_hexDigits _ 0
        (fun d hd => Nat.digits_lt_base (by norm_num) hd)]
      rw [Nat.zero_mul, Nat.zero_add, Nat.ofDigits_digits]
    cases hhex : toHexBytes n with
    | nil =>
      unfold toHexBytes at hhex
      rw [if_neg h0] at hhex
      simp only [List.map_eq_nil_iff, List.reverse_eq_nil_iff] at hhex
      exact absurd hhex hne
    | cons c ds =>
      rw [hhex] at hdig hval
      have hc : isHexDigitByte c = true := hdig c (by simp)
      show parseSizeLine (c :: (ds ++ 13 :: 10 :: rest)) = _
      simp only [parseSizeLine]
      rw [if_pos hc, sizeLineAux_digits ds _ rest
        (fun d hd => hdig d (by simp [hd]))]
      simp only [List.foldl_cons] at hval
      rw [Nat.zero_mul, Nat.zero_add] at hval
      rw [hval]

theorem decodeChunkedAux_terminator (K : Nat) :
    decodeChunkedAux (K + 1) [48, 13, 10, 13, 10] = some ([], 0, []) := by
  simp only [decodeChunkedAux]
  rfl

theorem decode_encode_chunked (body : List Nat) :
    decode_chunked (encode_chunked body) =
      some (body, (if body = [] then 0 else 1), []) := by
  by_cases h0 : body = []
  · subst h0
    decide
  · rw [if_neg h0]
    have hsform : encode_chunked body =
        toHexBytes body.length ++
          13 :: 10 :: (body ++ [13, 10, 48, 13, 10, 13, 10]) := by
      unfold encode_chunked
      rw [if_neg h0]
      simp [CRLF]
    have hpos : 0 < (encode_chunked body).length := by
      rw [hsform, List.length_append]
      simp
    obtain ⟨K, hK⟩ : ∃ K, (encode_chunked body).length + 1 = K + 2 :=
      ⟨(encode_chunked body).length - 1, by omega⟩
    unfold decode_chunked
    rw [hK, hsform]
    simp only [decodeChunkedAux]
    rw [parseSizeLine_toHexBytes]
    have hL : body.length ≠ 0 := by
      simpa [List.length_eq_zero] using h0
    have hdrop : (body ++ [13, 10, 48, 13, 10, 13, 10]).drop body.length =
        [13, 10, 48, 13, 10, 13, 10] := List.drop_left _ _
    have htake : (body ++ [13, 10, 48, 13, 10, 13, 10]).take body.length =
        body := List.take_left _ _
    have hcond : body.length ≤ (body ++ [13, 10, 48, 13, 10, 13, 10]).length ∧
        (((body ++ [13, 10, 48, 13, 10, 13, 10]).drop body.length).take 2) =
          CRLF := by
      constructor
      · rw [List.length_append]; omega
      · rw [hdrop]; rfl
    simp only [hL, if_false, ite_false, if_neg hL, if_pos hcond]
    rw [hdrop]
    rw [show (List.drop 2 [13, 10, 48, 13, 10, 13, 10] : List Nat) =
      [48, 13, 10, 13, 10] from rfl]
    rw [show parseSizeLine [48, 13, 10, 13, 10] = some (0, [13, 10]) from rfl]
    simp [htake, CRLF]

/-- C5: chunked round-trip — encoding a body with the chunked construction
of make_chain (hex length line, body, zero-size chunk, terminating CRLF)
and decoding it with the spec's chunked decoder reproduces the original
body exactly for bodies of length 0, 40 and 131072, with no leftover
bytes; the zero-length body decodes to an empty body with zero data chunks
beyond the terminator. -/
theorem chunked_round_trip :
    make_body 0 = [] ∧
    decode_chunked (encode_chunked (make_body 0)) = some ([], 0, []) ∧
    decode_chunked (encode_chunked (make_body 40)) =
      some (make_body 40, 1, []) ∧
    decode_chunked (encode_chunked (make_body 131072)) =
      some (make_body 131072, 1, []) := by
  have hlen : ∀ n, (make_body n).length = n := by
    intro n
    simp [make_body]
  have hne : ∀ n, n ≠ 0 → make_body n ≠ [] := by
    intro n hn h
    have := congrArg List.length h
    rw [hlen] at this
    simp at this
    exact hn this
  refine ⟨rfl, ?_, ?_, ?_⟩
  · have h := decode_encode_chunked (make_body 0)
    simpa using h
  · have h := decode_encode_chunked (make_body 40)
    rwa [if_neg (hne 40 (by omega))] at h
  · have h := decode_encode_chunked (make_body 131072)
    rwa [if_neg (hne 131072 (by omega))] at h

/-- Bytes of a byte-string literal. -/
def bytesOf (s : String) : List Nat := s.data.map Char.toNat

/-- Split a byte string at the first occurrence of a separator byte. -/
def splitAtByte (sep : Nat) : List Nat → Option (List Nat × List Nat)
  | [] => none
  | c :: rest =>
    if c = sep then some ([], rest)
    else match splitAtByte sep rest with
      | none => none
      | some (a, b) => some (c :: a, b)

/-- Split a byte string at the first CRLF pair; none while no complete line
is present. -/
def splitAtCRLF : List Nat → Option (List Nat × List Nat)
  | [] => none
  | c :: rest =>
    if c = 13 then
      match rest with
      | 10 :: rest2 => some ([], rest2)
      | _ => none
    else match splitAtCRLF rest with
      | none => none
      | some (a, b) => some (c :: a, b)

/-- Bytes allowed inside a method token by the minimal start-line grammar:
uppercase letters, so that a tab character inside the method is rejected. -/
def isMethodByte (c : Nat) : Bool := decide (65 ≤ c ∧ c ≤ 90)

/-- Bytes allowed inside a request target: visible ASCII. -/
def isTargetByte (c : Nat) : Bool := decide (33 ≤ c ∧ c ≤ 126)

/-- Bytes allowed inside a header field name: letters, digits, hyphen. -/
def isHeaderNameByte (c : Nat) : Bool :=
  decide ((65 ≤ c ∧ c ≤ 90) ∨ (97 ≤ c ∧ c ≤ 122) ∨ (48 ≤ c ∧ c ≤ 57) ∨ c = 45)

/-- Lowercase one byte, for case-insensitive header-name matching. -/
def lowerByte (c : Nat) : Nat := if 65 ≤ c ∧ c ≤ 90 then c + 32 else c

/-- Decimal number parsing for a Content-Length value. -/
def parseNatBytes (l : List Nat) : Option Nat :=
  if l ≠ [] ∧ l.all (fun c => decide (48 ≤ c ∧ c ≤ 57)) then
    some (l.foldl (fun a c => a * 10 + (c - 48)) 0)
  else none

/-- The lowercased bytes of the Content-Length header name. -/
def contentLengthLower : List Nat :=
  [99, 111, 110, 116, 101, 110, 116, 45, 108, 101, 110, 103, 116, 104]

/-- One header line split into its lowercased name and its value with
leading spaces stripped; none on a malformed line. -/
def parseHeaderLine (line : List Nat) : Option (List Nat × List Nat) :=
  match splitAtByte 58 line with
  | none => none
  | some (name, value) =>
    if name ≠ [] ∧ name.all isHeaderNameByte then
      some (name.map lowerByte, value.dropWhile (fun c => c = 32))
    else none

/-- Outcome of scanning the header section. -/
inductive HdrsOutcome where
  | incomplete
  | malformed
  | done (clen : Nat) (rest : List Nat)
deriving DecidableEq

/-- Scan header lines until the empty line, tracking Content-Length; fuel
one more than the input length always suffices. -/
def parseHeadersAux : Nat → Nat → List Nat → HdrsOutcome
  | 0, _, _ => HdrsOutcome.incomplete
  | fuel + 1, clen, l =>
    match splitAtCRLF l with
    | none => HdrsOutcome.incomplete
    | some (line, rest) =>
      if line = [] then HdrsOutcome.done clen rest
      else match parseHeaderLine line with
        | none => HdrsOutcome.malformed
        | some (name, value) =>
          if name = contentLengthLower then
            match parseNatBytes value with
            | none => HdrsOutcome.malformed
            | some n => parseHeadersAux fuel n rest
          else parseHeadersAux fuel clen rest

/-- The bytes of the version token HTTP/1.1. -/
def httpVersion : List Nat := [72, 84, 84, 80, 47, 49, 46, 49]

/-- Modelled from the spec: the incremental HTTP/1.x request parser — a
line feed before any start line or a character outside the minimal grammar
(such as a tab inside the method token) is a bad start line; the start line
is method, target and version separated by single spaces and ended by CRLF;
headers follow until an empty line; the body length is given by
Content-Length (zero when absent); a complete message consumes the start
line, the headers and the body. -/
def parseHttpRequest (B : List Nat) : ParseResult :=
  match B with
  | [] => ParseResult.incomplete
  | c :: _ =>
    if c = 10 then ParseResult.malformed "bad start line"
    else
      match splitAtByte 32 B with
      | none =>
        if B.all isMethodByte then ParseResult.incomplete
        else ParseResult.malformed "bad start line"
      | some (method, rest1) =>
        if ¬(method ≠ [] ∧ method.all isMethodByte) then
          ParseResult.malformed "bad start line"
        else match splitAtByte 32 rest1 with
          | none =>
            if rest1.all isTargetByte then ParseResult.incomplete
            else ParseResult.malformed "bad start line"
          | some (target, rest2) =>
            if ¬(target ≠ [] ∧ target.all isTargetByte) then
              ParseResult.malformed "bad start line"
            else match splitAtCRLF rest2 with
              | none => ParseResult.incomplete
              | some (version, rest3) =>
                if version ≠ httpVersion then
                  ParseResult.malformed "bad start line"
                else
                  match parseHeadersAux (rest3.length + 1) 0 rest3 with
                  | HdrsOutcome.incomplete => ParseResult.incomplete
                  | HdrsOutcome.malformed => ParseResult.malformed "bad header"
                  | HdrsOutcome.done clen rest4 =>
                    if B.length - rest4.length + clen ≤ B.length then
                      ParseResult.complete
                        (B.take (B.length - rest4.length + clen))
                        (B.length - rest4.length + clen)
                    else ParseResult.incomplete

/-- The well-formed first request of test_06_malformed_post_pipeline. -/
def r1_bytes : List Nat := bytesOf "GET /aaa HTTP/1.1\r\nHost: localhost\r\n\r\n"

/-- The full pipelined input of test_06_malformed_post_pipeline: a
well-formed request followed by a second request whose method token
contains a tab character. -/
def malformed_pipeline_input : List Nat :=
  bytesOf "GET /aaa HTTP/1.1\r\nHost: localhost\r\n\r\nPOS\tT /bbb HTTP/1.1\r\nHost: localhost\r\n\r\n"

/-- C8: on the pipelined input of test_06_malformed_post_pipeline — a
well-formed request followed by a second request whose method token
contains a tab character — the parser driver yields Complete for exactly
the first request and then Malformed (bad start line) on the remainder, so
exactly one request is observable as forwarded. -/
theorem malformed_pipelined_second :
    (feedAll parseHttpRequest [malformed_pipeline_input]).msgs = [r1_bytes] ∧
    (feedAll parseHttpRequest [malformed_pipeline_input]).err =
      some "bad start line" ∧
    (feedAll parseHttpRequest [malformed_pipeline_input]).msgs.length = 1 := by
  refine ⟨by decide, by decide, by decide⟩
